import Mathlib

/-!
Verification development for the simple-tree repository: a generic tree
renderer (src/node.rs), an unbalanced binary search tree with multiset
insertion (src/implementations/binary_unbalanced.rs), and a word-counting
trie with configurable child ordering and display
(src/implementations/trie.rs).

Machine integers (usize counters) are modelled as Nat: the counters only
grow by 1 per insertion, so overflow is out of scope.  Rust strings are
modelled as List Char (the code walks them with char_indices / chars().nth),
and rendered text as Lean String.  The BTreeMap backing the trie children is
modelled as a key-sorted association list, matching its iteration order.
-/

/-! ## The generic rendered tree (the Node trait seen by the renderer)

A node of any of the tree implementations, as the renderer consumes it: a
displayable value plus an ordered list of children (node.rs, trait Node).
-/

inductive RTree where
  | node (value : String) (children : List RTree)

def RTree.value : RTree → String
  | .node v _ => v

def RTree.children : RTree → List RTree
  | .node _ cs => cs

/-! ## The renderer (node.rs, Node::print_tree and Node::fmt)

print_tree writes, for every node, all accumulated prefixes (a stack whose
bottom element is "\n", pushed by fmt), then the node marker chosen by its
SpecialStatus, then the value; it then pushes the child-prefix contribution
and recurses into the children, the last child receiving LastChild status.
Since the prefix stack only ever gets written by joining left to right, it is
carried here as one accumulated string.
-/

mutual

def RTree.printTree : RTree → String → String → String → String
  | .node v cs, pre, sp, cp => pre ++ sp ++ v ++ RTree.printChildren cs (pre ++ cp)

def RTree.printChildren : List RTree → String → String
  | [], _ => ""
  | [c], pre => RTree.printTree c pre "└── " "    "
  | c :: c2 :: rest, pre =>
      RTree.printTree c pre "├── " "│   " ++ RTree.printChildren (c2 :: rest) pre

end

/-- Node::fmt: render the whole tree, starting from the prefix stack
containing only "\n" and the Root status (empty markers). -/
def RTree.render (t : RTree) : String :=
  t.printTree "\n" "" ""

/-! ## The line model of the output, following the specification text

The spec describes the output as a list of lines: the first line is the
root value with no prefix, and every other line is the concatenation of the
ancestors' marker contributions followed by the node marker and the value
(markers "├── "/"│   " for a non-last sibling, "└── "/four spaces for a
last or only child, nothing for the root).  These definitions follow the
spec wording; the renderer above follows the code.  The two are compared in
the C1 theorem.
-/

mutual

def specSubtree : RTree → String → String → String → List String
  | .node v cs, pre, marker, contrib =>
      (pre ++ marker ++ v) :: specChildLines cs (pre ++ contrib)

def specChildLines : List RTree → String → List String
  | [], _ => []
  | [c], pre => specSubtree c pre "└── " "    "
  | c :: c2 :: rest, pre =>
      specSubtree c pre "├── " "│   " ++ specChildLines (c2 :: rest) pre

end

/-- The lines of the rendered tree as the spec describes them: root value
first with no prefix, descendants with their accumulated markers. -/
def specLines (t : RTree) : List String :=
  specSubtree t "" "" ""

/-- Newline-separated join with no trailing newline. -/
def joinLines : List String → String
  | [] => ""
  | [l] => l
  | l :: l2 :: rest => l ++ "\n" ++ joinLines (l2 :: rest)

/-! Helper lemmas relating the code-side printer to the spec-side lines. -/

theorem string_foldl_append (a : String) (l : List String) :
    List.foldl (fun r s => r ++ s) a l = a ++ String.join l := by
  induction l generalizing a with
  | nil => simp [String.join]
  | cons x xs ih =>
    show List.foldl _ (a ++ x) xs = _
    rw [ih]
    have hx : String.join (x :: xs) = x ++ String.join xs := by
      show List.foldl _ ("" ++ x) xs = _
      rw [ih]; simp
    rw [hx, String.append_assoc]

theorem string_join_cons (x : String) (xs : List String) :
    String.join (x :: xs) = x ++ String.join xs := by
  show List.foldl _ ("" ++ x) xs = _
  rw [string_foldl_append]; simp

theorem string_join_append (xs ys : List String) :
    String.join (xs ++ ys) = String.join xs ++ String.join ys := by
  induction xs with
  | nil => simp [String.join]
  | cons x xs ih =>
    rw [List.cons_append, string_join_cons, string_join_cons, ih, String.append_assoc]

theorem joinLines_cons_of_ne_nil (x : String) (xs : List String) (h : xs ≠ []) :
    joinLines (x :: xs) = x ++ "\n" ++ joinLines xs := by
  cases xs with
  | nil => exact absurd rfl h
  | cons y ys => rfl

theorem join_newline_map (ls : List String) (h : ls ≠ []) :
    String.join (ls.map (fun l => "\n" ++ l)) = "\n" ++ joinLines ls := by
  induction ls with
  | nil => exact absurd rfl h
  | cons x xs ih =>
    cases xs with
    | nil => simp [String.join, joinLines]
    | cons y ys =>
      rw [joinLines_cons_of_ne_nil x (y :: ys) (by simp)]
      rw [List.map_cons, string_join_cons, ih (by simp)]
      simp [String.append_assoc]

mutual

theorem printTree_eq_join (t : RTree) (pre marker contrib : String) :
    RTree.printTree t ("\n" ++ pre) marker contrib =
      String.join ((specSubtree t pre marker contrib).map (fun l => "\n" ++ l)) := by
  cases t with
  | node v cs =>
    rw [RTree.printTree, specSubtree]
    have h := printChildren_eq_join cs (pre ++ contrib)
    rw [← String.append_assoc "\n" pre contrib] at h
    rw [h, List.map_cons, string_join_cons]
    simp [String.append_assoc]

theorem printChildren_eq_join (cs : List RTree) (pre : String) :
    RTree.printChildren cs ("\n" ++ pre) =
      String.join ((specChildLines cs pre).map (fun l => "\n" ++ l)) := by
  cases cs with
  | nil => rw [RTree.printChildren, specChildLines]; rfl
  | cons c cs2 =>
    cases cs2 with
    | nil =>
      rw [RTree.printChildren, specChildLines]
      exact printTree_eq_join c pre "└── " "    "
    | cons c2 rest =>
      rw [RTree.printChildren, specChildLines]
      rw [printTree_eq_join c pre "├── " "│   ", printChildren_eq_join (c2 :: rest) pre]
      rw [List.map_append, string_join_append]

end

theorem specSubtree_ne_nil (t : RTree) (pre marker contrib : String) :
    specSubtree t pre marker contrib ≠ [] := by
  cases t with
  | node v cs => simp [specSubtree]

/-- C1, as stated, is false on the code: Node::fmt seeds the prefix stack
with "\n", so a childless root renders as "\n7", not as its bare value with
no characters before it. -/
theorem render_single_node_not_bare :
    RTree.render (RTree.node "7" []) ≠ "7" ∧
      RTree.render (RTree.node "7" []) = "\n7" := by
  constructor
  · decide
  · decide

/-- C1 (amended): for every tree, the rendered text is one leading newline
followed by the newline-separated lines, with no trailing newline; the first
of those lines is the root's value with no prefix and nothing else before
it, and every subsequent line is the concatenation of the ancestor markers
followed by the node's own marker and its value, as described by specLines. -/
theorem render_lines_characterization (t : RTree) :
    RTree.render t = "\n" ++ joinLines (specLines t) ∧
      (specLines t).head? = some (RTree.value t) := by
  constructor
  · have h0 : ("\n" : String) = "\n" ++ "" := by simp
    rw [RTree.render, h0, printTree_eq_join t "" "" ""]
    exact join_newline_map _ (specSubtree_ne_nil t "" "" "")
  · cases t with
    | node v cs => simp [specLines, specSubtree, RTree.value]

/-! ## The unbalanced binary search tree
(src/implementations/binary_unbalanced.rs, NodeBinaryUnbalanced)

A node carries a value, an occurrence count, and optional owned left and
right subtrees.  The value type is instantiated at Int, a total order with
a Display, standing in for the generic T: Display + Ord.
-/

inductive BTree where
  | node (val : Int) (count : Nat) (left : Option BTree) (right : Option BTree)

/-- NodeBinaryUnbalanced::new: a single node with the given value, count 1,
no children. -/
def BTree.new (v : Int) : BTree :=
  .node v 1 none none

mutual

/-- NodeBinaryUnbalanced::insert: compare with the node value; recurse left
when less (creating the left child if absent), recurse right when greater,
and increment the occurrence count when equal. -/
def BTree.insert : BTree → Int → BTree
  | .node v c l r, x =>
    if x < v then .node v c (some (BTree.insertO l x)) r
    else if v < x then .node v c l (some (BTree.insertO r x))
    else .node v (c + 1) l r

def BTree.insertO : Option BTree → Int → BTree
  | none, x => BTree.new x
  | some t, x => BTree.insert t x

end

mutual

/-- The in-order value sequence of the tree (left subtree, node, right
subtree). -/
def BTree.keys : BTree → List Int
  | .node v _ l r => BTree.keysO l ++ v :: BTree.keysO r

def BTree.keysO : Option BTree → List Int
  | none => []
  | some t => BTree.keys t

end

mutual

/-- The binary-search-tree invariant: every key in the left subtree is less
than the node value and every key in the right subtree greater, recursively.
Reachable trees (built by new and insert) satisfy it. -/
def BTree.wf : BTree → Bool
  | .node v _ l r =>
    (BTree.keysO l).all (fun k => k < v) && (BTree.keysO r).all (fun k => v < k) &&
      BTree.wfO l && BTree.wfO r

def BTree.wfO : Option BTree → Bool
  | none => true
  | some t => BTree.wf t

end

mutual

/-- Node::count_descendents, specialized by the children() order of the
binary tree (left then right, absent children skipped): the sum over the
children of one plus their own descendent count. -/
def BTree.countDescendents : BTree → Nat
  | .node _ _ l r => BTree.countDescendentsO l + BTree.countDescendentsO r

def BTree.countDescendentsO : Option BTree → Nat
  | none => 0
  | some t => BTree.countDescendents t + 1

end

mutual

/-- The view of the binary tree consumed by the renderer: value() displays
the stored value (the count is not displayed), children() yields left then
right, skipping absent ones. -/
def BTree.toRTree : BTree → RTree
  | .node v _ l r => .node (toString v) (BTree.toRTreeO l ++ BTree.toRTreeO r)

def BTree.toRTreeO : Option BTree → List RTree
  | none => []
  | some t => [BTree.toRTree t]

end

mutual

/-- The occurrence count stored at the node holding x, following the same
comparisons insert makes; 0 when no node holds x. -/
def BTree.countOf : BTree → Int → Nat
  | .node v c l r, x =>
    if x < v then BTree.countOfO l x
    else if v < x then BTree.countOfO r x
    else c

def BTree.countOfO : Option BTree → Int → Nat
  | none, _ => 0
  | some t, x => BTree.countOf t x

end

/-! ### Lemmas about the binary search tree -/

theorem BTree.wf_node_iff (v : Int) (c : Nat) (l r : Option BTree) :
    BTree.wf (.node v c l r) = true ↔
      (∀ k ∈ BTree.keysO l, k < v) ∧ (∀ k ∈ BTree.keysO r, v < k) ∧
        BTree.wfO l = true ∧ BTree.wfO r = true := by
  rw [BTree.wf]
  simp [List.all_eq_true, and_assoc]

mutual

theorem BTree.mem_keys_insert (t : BTree) (x k : Int) :
    k ∈ (BTree.insert t x).keys ↔ k = x ∨ k ∈ t.keys := by
  cases t with
  | node v c l r =>
    rw [BTree.insert]
    by_cases h1 : x < v
    · rw [if_pos h1, BTree.keys, BTree.keys, BTree.keysO]
      have ih := BTree.mem_keys_insertO l x k
      simp only [List.mem_append, List.mem_cons] at ih ⊢
      tauto
    · rw [if_neg h1]
      by_cases h2 : v < x
      · rw [if_pos h2, BTree.keys, BTree.keys, BTree.keysO]
        have ih := BTree.mem_keys_insertO r x k
        simp only [List.mem_append, List.mem_cons] at ih ⊢
        tauto
      · rw [if_neg h2]
        have hx : x = v := by omega
        subst hx
        rw [BTree.keys, BTree.keys]
        simp only [List.mem_append, List.mem_cons]
        tauto

theorem BTree.mem_keys_insertO (o : Option BTree) (x k : Int) :
    k ∈ (BTree.insertO o x).keys ↔ k = x ∨ k ∈ BTree.keysO o := by
  cases o with
  | none =>
    rw [BTree.insertO, BTree.new, BTree.keys]
    simp [BTree.keysO]
  | some t =>
    rw [BTree.insertO, BTree.keysO]
    exact BTree.mem_keys_insert t x k

end

mutual

theorem BTree.wf_insert (t : BTree) (x : Int) (h : t.wf = true) :
    (BTree.insert t x).wf = true := by
  cases t with
  | node v c l r =>
    rw [BTree.wf_node_iff] at h
    obtain ⟨hl, hr, hwl, hwr⟩ := h
    rw [BTree.insert]
    by_cases h1 : x < v
    · rw [if_pos h1, BTree.wf_node_iff]
      refine ⟨?_, hr, ?_, hwr⟩
      · intro k hk
        rw [BTree.keysO, BTree.mem_keys_insertO] at hk
        rcases hk with rfl | hk
        · exact h1
        · exact hl k hk
      · rw [BTree.wfO]
        exact BTree.wf_insertO l x hwl
    · rw [if_neg h1]
      by_cases h2 : v < x
      · rw [if_pos h2, BTree.wf_node_iff]
        refine ⟨hl, ?_, hwl, ?_⟩
        · intro k hk
          rw [BTree.keysO, BTree.mem_keys_insertO] at hk
          rcases hk with rfl | hk
          · exact h2
          · exact hr k hk
        · rw [BTree.wfO]
          exact BTree.wf_insertO r x hwr
      · rw [if_neg h2, BTree.wf_node_iff]
        exact ⟨hl, hr, hwl, hwr⟩

theorem BTree.wf_insertO (o : Option BTree) (x : Int) (h : BTree.wfO o = true) :
    (BTree.insertO o x).wf = true := by
  cases o with
  | none =>
    rw [BTree.insertO, BTree.new, BTree.wf_node_iff]
    simp [BTree.keysO, BTree.wfO]
  | some t =>
    rw [BTree.insertO]
    rw [BTree.wfO] at h
    exact BTree.wf_insert t x h

end

mutual

theorem BTree.pairwise_keys (t : BTree) (h : t.wf = true) :
    t.keys.Pairwise (· < ·) := by
  cases t with
  | node v c l r =>
    rw [BTree.wf_node_iff] at h
    obtain ⟨hl, hr, hwl, hwr⟩ := h
    rw [BTree.keys]
    rw [List.pairwise_append]
    refine ⟨BTree.pairwise_keysO l hwl, ?_, ?_⟩
    · rw [List.pairwise_cons]
      exact ⟨hr, BTree.pairwise_keysO r hwr⟩
    · intro a ha b hb
      rcases List.mem_cons.mp hb with rfl | hb
      · exact hl a ha
      · exact lt_trans (hl a ha) (hr b hb)

theorem BTree.pairwise_keysO (o : Option BTree) (h : BTree.wfO o = true) :
    (BTree.keysO o).Pairwise (· < ·) := by
  cases o with
  | none => simp [BTree.keysO]
  | some t =>
    rw [BTree.keysO]
    rw [BTree.wfO] at h
    exact BTree.pairwise_keys t h

end

mutual

theorem BTree.countDescendents_succ (t : BTree) :
    t.countDescendents + 1 = t.keys.length := by
  cases t with
  | node v c l r =>
    rw [BTree.countDescendents, BTree.keys]
    rw [BTree.countDescendentsO_eq l, BTree.countDescendentsO_eq r]
    simp [Nat.add_comm, Nat.add_assoc, Nat.add_left_comm]

theorem BTree.countDescendentsO_eq (o : Option BTree) :
    BTree.countDescendentsO o = (BTree.keysO o).length := by
  cases o with
  | none => rw [BTree.countDescendentsO, BTree.keysO]; rfl
  | some t =>
    rw [BTree.countDescendentsO, BTree.keysO]
    exact BTree.countDescendents_succ t

end

mutual

theorem BTree.keys_insert_of_mem (t : BTree) (x : Int) (hwf : t.wf = true)
    (hx : x ∈ t.keys) : (BTree.insert t x).keys = t.keys := by
  cases t with
  | node v c l r =>
    rw [BTree.wf_node_iff] at hwf
    obtain ⟨hl, hr, hwl, hwr⟩ := hwf
    rw [BTree.insert]
    by_cases h1 : x < v
    · rw [if_pos h1, BTree.keys, BTree.keys, BTree.keysO]
      have hxl : x ∈ BTree.keysO l := by
        rw [BTree.keys] at hx
        rcases List.mem_append.mp hx with hx | hx
        · exact hx
        · rcases List.mem_cons.mp hx with rfl | hx
          · omega
          · exact absurd (hr x hx) (by omega)
      rw [BTree.keys_insertO_of_mem l x hwl hxl]
    · rw [if_neg h1]
      by_cases h2 : v < x
      · rw [if_pos h2, BTree.keys, BTree.keys, BTree.keysO]
        have hxr : x ∈ BTree.keysO r := by
          rw [BTree.keys] at hx
          rcases List.mem_append.mp hx with hx | hx
          · exact absurd (hl x hx) (by omega)
          · rcases List.mem_cons.mp hx with rfl | hx
            · omega
            · exact hx
        rw [BTree.keys_insertO_of_mem r x hwr hxr]
      · rw [if_neg h2, BTree.keys, BTree.keys]

theorem BTree.keys_insertO_of_mem (o : Option BTree) (x : Int)
    (hwf : BTree.wfO o = true) (hx : x ∈ BTree.keysO o) :
    (BTree.insertO o x).keys = BTree.keysO o := by
  cases o with
  | none => simp [BTree.keysO] at hx
  | some t =>
    rw [BTree.insertO, BTree.keysO]
    rw [BTree.wfO] at hwf
    rw [BTree.keysO] at hx
    exact BTree.keys_insert_of_mem t x hwf hx

end

mutual

theorem BTree.toRTree_insert_of_mem (t : BTree) (x : Int) (hwf : t.wf = true)
    (hx : x ∈ t.keys) : (BTree.insert t x).toRTree = t.toRTree := by
  cases t with
  | node v c l r =>
    rw [BTree.wf_node_iff] at hwf
    obtain ⟨hl, hr, hwl, hwr⟩ := hwf
    rw [BTree.insert]
    by_cases h1 : x < v
    · rw [if_pos h1, BTree.toRTree, BTree.toRTree]
      have hxl : x ∈ BTree.keysO l := by
        rw [BTree.keys] at hx
        rcases List.mem_append.mp hx with hx | hx
        · exact hx
        · rcases List.mem_cons.mp hx with rfl | hx
          · omega
          · exact absurd (hr x hx) (by omega)
      rw [BTree.toRTreeO_insertO_of_mem l x hwl hxl]
    · rw [if_neg h1]
      by_cases h2 : v < x
      · rw [if_pos h2, BTree.toRTree, BTree.toRTree]
        have hxr : x ∈ BTree.keysO r := by
          rw [BTree.keys] at hx
          rcases List.mem_append.mp hx with hx | hx
          · exact absurd (hl x hx) (by omega)
          · rcases List.mem_cons.mp hx with rfl | hx
            · omega
            · exact hx
        rw [BTree.toRTreeO_insertO_of_mem r x hwr hxr]
      · rw [if_neg h2, BTree.toRTree, BTree.toRTree]

theorem BTree.toRTreeO_insertO_of_mem (o : Option BTree) (x : Int)
    (hwf : BTree.wfO o = true) (hx : x ∈ BTree.keysO o) :
    BTree.toRTreeO (some (BTree.insertO o x)) = BTree.toRTreeO o := by
  cases o with
  | none => simp [BTree.keysO] at hx
  | some t =>
    rw [BTree.insertO, BTree.toRTreeO, BTree.toRTreeO]
    rw [BTree.wfO] at hwf
    rw [BTree.keysO] at hx
    rw [BTree.toRTree_insert_of_mem t x hwf hx]

end

mutual

theorem BTree.countOf_insert_self (t : BTree) (x : Int) :
    (BTree.insert t x).countOf x = t.countOf x + 1 := by
  cases t with
  | node v c l r =>
    rw [BTree.insert]
    by_cases h1 : x < v
    · rw [if_pos h1, BTree.countOf, if_pos h1, BTree.countOf, if_pos h1, BTree.countOfO]
      exact BTree.countOfO_insertO_self l x
    · rw [if_neg h1]
      by_cases h2 : v < x
      · rw [if_pos h2, BTree.countOf, if_neg h1, if_pos h2,
          BTree.countOf, if_neg h1, if_pos h2, BTree.countOfO]
        exact BTree.countOfO_insertO_self r x
      · rw [if_neg h2, BTree.countOf, if_neg h1, if_neg h2,
          BTree.countOf, if_neg h1, if_neg h2]

theorem BTree.countOfO_insertO_self (o : Option BTree) (x : Int) :
    (BTree.insertO o x).countOf x = BTree.countOfO o x + 1 := by
  cases o with
  | none =>
    rw [BTree.insertO, BTree.new, BTree.countOf, BTree.countOfO]
    rw [if_neg (by omega), if_neg (by omega)]
  | some t =>
    rw [BTree.insertO, BTree.countOfO]
    exact BTree.countOf_insert_self t x

end

theorem BTree.wf_foldl_insert (ws : List Int) (t : BTree) (h : t.wf = true) :
    (ws.foldl BTree.insert t).wf = true := by
  induction ws generalizing t with
  | nil => exact h
  | cons x ws ih =>
    rw [List.foldl_cons]
    exact ih _ (BTree.wf_insert t x h)

theorem BTree.toFinset_keys_insert (t : BTree) (x : Int) :
    (BTree.insert t x).keys.toFinset = {x} ∪ t.keys.toFinset := by
  ext k
  simp only [List.mem_toFinset, Finset.mem_union, Finset.mem_singleton,
    BTree.mem_keys_insert]

theorem BTree.toFinset_keys_foldl (ws : List Int) (t : BTree) :
    (ws.foldl BTree.insert t).keys.toFinset = t.keys.toFinset ∪ ws.toFinset := by
  induction ws generalizing t with
  | nil => simp
  | cons x ws ih =>
    rw [List.foldl_cons, ih, BTree.toFinset_keys_insert]
    ext k
    simp only [Finset.mem_union, Finset.mem_singleton, List.toFinset_cons,
      List.mem_toFinset, Finset.mem_insert]
    tauto

theorem BTree.wf_new (v : Int) : (BTree.new v).wf = true := by
  rw [BTree.new, BTree.wf_node_iff]
  simp [BTree.keysO, BTree.wfO]

theorem BTree.keys_new (v : Int) : (BTree.new v).keys = [v] := by
  rw [BTree.new, BTree.keys]
  simp [BTree.keysO]

/-- C3: for every sequence of insertions into the ordered binary tree
starting from new(v0), the in-order traversal of the result is sorted in
non-decreasing order, and count_descendents() plus one equals the number of
distinct values inserted (duplicates collapse into a counter). -/
theorem bst_inorder_sorted_distinct_count (v0 : Int) (ws : List Int) :
    (ws.foldl BTree.insert (BTree.new v0)).keys.Sorted (· ≤ ·) ∧
      (ws.foldl BTree.insert (BTree.new v0)).countDescendents + 1 =
        (v0 :: ws).toFinset.card := by
  have hwf : (ws.foldl BTree.insert (BTree.new v0)).wf = true :=
    BTree.wf_foldl_insert ws (BTree.new v0) (BTree.wf_new v0)
  have hpw := BTree.pairwise_keys _ hwf
  constructor
  · exact hpw.imp (fun h => le_of_lt h)
  · have hnd : (ws.foldl BTree.insert (BTree.new v0)).keys.Nodup :=
      hpw.imp (fun h => ne_of_lt h)
    have hcard := List.toFinset_card_of_nodup hnd
    have hfin := BTree.toFinset_keys_foldl ws (BTree.new v0)
    rw [BTree.keys_new v0] at hfin
    rw [BTree.countDescendents_succ, ← hcard, hfin]
    congr 1
    ext k
    simp

/-- C10: inserting a value already present in a well-formed binary search
tree changes only that node's occurrence counter: the renderer view, the
rendered text, the in-order values, and the descendent count are all
unchanged, while the counter at that value increments. -/
theorem bst_insert_duplicate_frame (t : BTree) (x : Int) (hwf : t.wf = true)
    (hx : x ∈ t.keys) :
    (BTree.insert t x).toRTree = t.toRTree ∧
      RTree.render (BTree.insert t x).toRTree = RTree.render t.toRTree ∧
      (BTree.insert t x).keys = t.keys ∧
      (BTree.insert t x).countDescendents = t.countDescendents ∧
      (BTree.insert t x).countOf x = t.countOf x + 1 := by
  have hrt := BTree.toRTree_insert_of_mem t x hwf hx
  have hkeys := BTree.keys_insert_of_mem t x hwf hx
  refine ⟨hrt, by rw [hrt], hkeys, ?_, BTree.countOf_insert_self t x⟩
  have h1 := BTree.countDescendents_succ (BTree.insert t x)
  have h2 := BTree.countDescendents_succ t
  rw [hkeys] at h1
  omega

/-- Concrete instance of the C10 frame theorem: the tree built from 5 then 3,
with 3 inserted again. -/
theorem bst_insert_duplicate_frame_witness :
    (BTree.insert (BTree.insert (BTree.new 5) 3) 3).toRTree =
        (BTree.insert (BTree.new 5) 3).toRTree ∧
      RTree.render (BTree.insert (BTree.insert (BTree.new 5) 3) 3).toRTree =
        RTree.render (BTree.insert (BTree.new 5) 3).toRTree ∧
      (BTree.insert (BTree.insert (BTree.new 5) 3) 3).keys =
        (BTree.insert (BTree.new 5) 3).keys ∧
      (BTree.insert (BTree.insert (BTree.new 5) 3) 3).countDescendents =
        (BTree.insert (BTree.new 5) 3).countDescendents ∧
      (BTree.insert (BTree.insert (BTree.new 5) 3) 3).countOf 3 =
        (BTree.insert (BTree.new 5) 3).countOf 3 + 1 :=
  bst_insert_duplicate_frame (BTree.insert (BTree.new 5) 3) 3 (by decide) (by decide)

/-! ## The trie (src/implementations/trie.rs)

A node holds the word fragment it represents, the number of times exactly
that fragment was added (count), the number of times it or anything below it
was added (descendents_count), the children keyed by next character, and the
per-node sort option and display mode.  The BTreeMap is modelled as an
association list kept sorted by key, matching its iteration order; words and
fragments are lists of characters.
-/

inductive SortOption where
  | value
  | valueReversed
  | directCountAscending
  | directCountDescending
  | totalCountAscending
  | totalCountDescending
deriving DecidableEq

inductive DisplayData where
  | none
  | directCount
  | totalCount
deriving DecidableEq

inductive Trie where
  | mk (fragment : List Char) (count : Nat) (descendentsCount : Nat)
       (children : List (Char × Trie)) (sortOption : SortOption)
       (displayData : DisplayData)

def Trie.fragment : Trie → List Char
  | .mk f _ _ _ _ _ => f

def Trie.count : Trie → Nat
  | .mk _ c _ _ _ _ => c

def Trie.descendentsCount : Trie → Nat
  | .mk _ _ dc _ _ _ => dc

def Trie.children : Trie → List (Char × Trie)
  | .mk _ _ _ ch _ _ => ch

def Trie.sortOption : Trie → SortOption
  | .mk _ _ _ _ so _ => so

def Trie.displayData : Trie → DisplayData
  | .mk _ _ _ _ _ dd => dd

/-- Trie::new_with_fragment: a node with the given fragment, both counters
zero, no children. -/
def Trie.newWithFragment (frag : List Char) (so : SortOption) (dd : DisplayData) : Trie :=
  .mk frag 0 0 [] so dd

/-- Trie::new: empty root, fragment "", sorted by value, displaying the
direct count. -/
def Trie.new : Trie :=
  Trie.newWithFragment [] .value .directCount

/-- The state of a freshly created child node (new_with_fragment, fragment
frag) after Trie::add has pushed the remaining suffix rest of the word into
it: every node on the chain gets descendents_count 1, the terminal node gets
count 1, and each intermediate node gets exactly one child keyed by the next
character.  This unrolls the add recursion through the or_insert_with
branch, which always runs on nodes of exactly this shape; the agreement with
add is proved in Trie.add_newWithFragment below. -/
def Trie.addFresh (so : SortOption) (dd : DisplayData) : List Char → List Char → Trie
  | frag, [] => .mk frag 1 1 [] so dd
  | frag, c :: rest => .mk frag 0 1 [(c, Trie.addFresh so dd (frag ++ [c]) rest)] so dd

mutual

/-- Trie::add: err when the word does not start with this node's fragment
(leaving the node unmodified); otherwise increment descendents_count, and
either increment count and return it (word exhausted at this node) or
find-or-create the child keyed by the next character and recurse.  The
source unwraps the recursive result (the inner error is unreachable from a
well-formed node, see trie_add_error_iff); the embedding propagates it. -/
def Trie.add : Trie → List Char → Except String (Trie × Nat)
  | .mk frag c dc ch so dd, word =>
    if frag.isPrefixOf word then
      match word.get? frag.length with
      | .none => .ok (.mk frag (c + 1) (dc + 1) ch so dd, c + 1)
      | .some nc =>
        match Trie.addInChildren ch nc word so dd frag.length with
        | .ok (ch2, n) => .ok (.mk frag c (dc + 1) ch2 so dd, n)
        | .error e => .error e
    else .error "cannot add word to node with incompatible prefix"

/-- The children.entry(next_char).or_insert_with(new_with_fragment ...)
step of Trie::add on the key-sorted association list: recurse into the
existing child with that key, or insert a fresh chain at the sorted
position. -/
def Trie.addInChildren (ch : List (Char × Trie)) (nc : Char) (word : List Char)
    (so : SortOption) (dd : DisplayData) (flen : Nat) :
    Except String (List (Char × Trie) × Nat) :=
  match ch with
  | [] => .ok ([(nc, Trie.addFresh so dd (word.take (flen + 1)) (word.drop (flen + 1)))], 1)
  | (k, t) :: rest =>
    if nc = k then
      match Trie.add t word with
      | .ok (t2, n) => .ok ((k, t2) :: rest, n)
      | .error e => .error e
    else if nc < k then
      .ok ((nc, Trie.addFresh so dd (word.take (flen + 1)) (word.drop (flen + 1)))
            :: (k, t) :: rest, 1)
    else
      match Trie.addInChildren rest nc word so dd flen with
      | .ok (rest2, n) => .ok ((k, t) :: rest2, n)
      | .error e => .error e

end

/-- Trie::populate applied to one word: add the word and keep the new trie,
unwrapping the result (the error is unreachable when inserting at a root,
whose empty fragment is a prefix of every word). -/
def Trie.addW (t : Trie) (w : List Char) : Trie :=
  match t.add w with
  | .ok (t2, _) => t2
  | .error _ => t

/-- Trie::from: a new default trie populated with the given words in
order. -/
def Trie.fromWords (ws : List (List Char)) : Trie :=
  ws.foldl Trie.addW Trie.new

mutual

/-- Trie::find: walk down one character at a time from this node; the node
reached after consuming the whole relative word, if every step finds a
child. -/
def Trie.find : Trie → List Char → Option Trie
  | t, [] => some t
  | .mk _ _ _ ch _ _, c :: rest => Trie.findIn ch c rest

def Trie.findIn : List (Char × Trie) → Char → List Char → Option Trie
  | [], _, _ => none
  | (k, t) :: tail, c, rest =>
    if c = k then Trie.find t rest else Trie.findIn tail c rest

end

/-- Trie::occurrences: the direct count of the node found for the word, or 0
when no such node exists. -/
def Trie.occurrences (t : Trie) (word : List Char) : Nat :=
  match t.find word with
  | some n => n.count
  | none => 0

/-- Trie::total_occurrences: the descendents count of the node queried. -/
def Trie.totalOccurrences (t : Trie) : Nat :=
  t.descendentsCount

/-- Node::value for Trie: empty at the root (empty fragment), otherwise the
fragment, optionally followed by a tab and the direct or subtree count,
according to the display mode. -/
def Trie.value : Trie → String
  | .mk frag c dc _ _ dd =>
    if frag.isEmpty then "" else
      match dd with
      | .none => String.mk frag
      | .directCount => String.mk frag ++ "\t" ++ toString c
      | .totalCount => String.mk frag ++ "\t" ++ toString dc

/-- Node::children for Trie: the stored children (in ascending key order,
the BTreeMap iteration order), re-sorted per the node's sort option.  The
numeric sorts use Rust's stable slice sort, modelled by the stable
List.mergeSort. -/
def Trie.childrenSorted : Trie → List Trie
  | .mk _ _ _ ch so _ =>
    match so with
    | .value => ch.map Prod.snd
    | .valueReversed => (ch.map Prod.snd).reverse
    | .directCountAscending =>
        (ch.map Prod.snd).mergeSort (fun a b => a.count ≤ b.count)
    | .directCountDescending =>
        (ch.map Prod.snd).mergeSort (fun a b => b.count ≤ a.count)
    | .totalCountAscending =>
        (ch.map Prod.snd).mergeSort (fun a b => a.descendentsCount ≤ b.descendentsCount)
    | .totalCountDescending =>
        (ch.map Prod.snd).mergeSort (fun a b => b.descendentsCount ≤ a.descendentsCount)

mutual

/-- Trie::set_sort_option: set the option on this node and recursively on
every descendant. -/
def Trie.setSortOption : Trie → SortOption → Trie
  | .mk f c dc ch _ dd, so => .mk f c dc (Trie.setSortOptionList ch so) so dd

def Trie.setSortOptionList : List (Char × Trie) → SortOption → List (Char × Trie)
  | [], _ => []
  | (k, t) :: rest, so => (k, Trie.setSortOption t so) :: Trie.setSortOptionList rest so

end

mutual

/-- Trie::set_display_data: set the display mode on this node and
recursively on every descendant. -/
def Trie.setDisplayData : Trie → DisplayData → Trie
  | .mk f c dc ch so _, dd => .mk f c dc (Trie.setDisplayDataList ch dd) so dd

def Trie.setDisplayDataList : List (Char × Trie) → DisplayData → List (Char × Trie)
  | [], _ => []
  | (k, t) :: rest, dd => (k, Trie.setDisplayData t dd) :: Trie.setDisplayDataList rest dd

end

/-- The re-sorting of Node::children applied to children paired with their
already-built renderer views, comparing by the same fields childrenSorted
compares.  Used to build the renderer view of a trie by structural
recursion; Trie.toRTree_eq proves it agrees with childrenSorted. -/
def Trie.sortPairs (so : SortOption) (ps : List (Trie × RTree)) : List (Trie × RTree) :=
  match so with
  | .value => ps
  | .valueReversed => ps.reverse
  | .directCountAscending => ps.mergeSort (fun a b => a.1.count ≤ b.1.count)
  | .directCountDescending => ps.mergeSort (fun a b => b.1.count ≤ a.1.count)
  | .totalCountAscending =>
      ps.mergeSort (fun a b => a.1.descendentsCount ≤ b.1.descendentsCount)
  | .totalCountDescending =>
      ps.mergeSort (fun a b => b.1.descendentsCount ≤ a.1.descendentsCount)

mutual

/-- The view of the trie consumed by the renderer: Node::value and
Node::children as the trie implements them. -/
def Trie.toRTree : Trie → RTree
  | .mk f c dc ch so dd =>
      .node (Trie.value (.mk f c dc ch so dd))
        ((Trie.sortPairs so (Trie.childPairs ch)).map Prod.snd)

def Trie.childPairs : List (Char × Trie) → List (Trie × RTree)
  | [] => []
  | (_, t) :: rest => (t, Trie.toRTree t) :: Trie.childPairs rest

end

mutual

/-- Structural well-formedness of a trie, as maintained by the root-level
API: children keys are strictly ascending (the BTreeMap guarantee), each
child is keyed by the character that extends the parent fragment, and each
child's fragment is the parent's fragment extended by that character. -/
def Trie.good : Trie → Bool
  | .mk f _ _ ch _ _ => Trie.ascKeys ch && Trie.goodList f ch

def Trie.ascKeys : List (Char × Trie) → Bool
  | [] => true
  | [_] => true
  | (k1, _) :: (k2, t2) :: rest =>
      decide (k1 < k2) && Trie.ascKeys ((k2, t2) :: rest)

def Trie.goodList : List Char → List (Char × Trie) → Bool
  | _, [] => true
  | f, (k, t) :: rest =>
      decide (t.fragment = f ++ [k]) && Trie.good t && Trie.goodList f rest

end

/-- The sum of the descendents counts of the children of a node. -/
def Trie.sumDC : List (Char × Trie) → Nat
  | [] => 0
  | (_, t) :: rest => t.descendentsCount + Trie.sumDC rest

mutual

/-- The aggregate-count invariant: at every node, descendents_count equals
the node's own count plus the sum of the children's descendents counts. -/
def Trie.countsOK : Trie → Prop
  | .mk _ c dc ch _ _ => dc = c + Trie.sumDC ch ∧ Trie.countsOKList ch

def Trie.countsOKList : List (Char × Trie) → Prop
  | [] => True
  | (_, t) :: rest => Trie.countsOK t ∧ Trie.countsOKList rest

end

/-! The settings-free skeleton of a trie: fragments, counts and the keyed
child structure, with the sort option and display mode erased.  Two tries
with the same skeleton have the same fragments and the same counts
everywhere. -/

inductive TrieSkel where
  | mk (fragment : List Char) (count : Nat) (descendentsCount : Nat)
       (children : List (Char × TrieSkel))

mutual

def Trie.skel : Trie → TrieSkel
  | .mk f c dc ch _ _ => .mk f c dc (Trie.skelList ch)

def Trie.skelList : List (Char × Trie) → List (Char × TrieSkel)
  | [] => []
  | (k, t) :: rest => (k, Trie.skel t) :: Trie.skelList rest

end

mutual

/-- Every node of the trie carries the given sort option. -/
def Trie.allSortOption : Trie → SortOption → Prop
  | .mk _ _ _ ch so _, so2 => so = so2 ∧ Trie.allSortOptionList ch so2

def Trie.allSortOptionList : List (Char × Trie) → SortOption → Prop
  | [], _ => True
  | (_, t) :: rest, so2 => Trie.allSortOption t so2 ∧ Trie.allSortOptionList rest so2

end

mutual

/-- Every node of the trie carries the given display mode. -/
def Trie.allDisplayData : Trie → DisplayData → Prop
  | .mk _ _ _ ch _ dd, dd2 => dd = dd2 ∧ Trie.allDisplayDataList ch dd2

def Trie.allDisplayDataList : List (Char × Trie) → DisplayData → Prop
  | [], _ => True
  | (_, t) :: rest, dd2 => Trie.allDisplayData t dd2 ∧ Trie.allDisplayDataList rest dd2

end

/-! ### The rendered-scenario claims -/

/-- The word sequence of the trie rendering scenario. -/
def scenarioWords : List (List Char) :=
  ["foo".toList, "bar".toList, "baz".toList, "foo".toList, "baz".toList,
   "foo".toList, "b".toList]

/-- C2, as stated, is false on the code: rendering the scenario trie does
not yield the seven-line text starting directly with the b line.  The root
line of a trie is empty (its value is the empty string), and fmt seeds the
prefix stack with a newline, so two newline characters precede the first
visible line. -/
theorem trie_scenario_text_cex :
    RTree.render (Trie.toRTree (Trie.fromWords scenarioWords)) ≠
      "├── b\t1\n│   └── ba\t0\n│       ├── bar\t1\n│       └── baz\t2\n└── f\t0\n    └── fo\t0\n        └── foo\t3" := by
  decide

/-- C2 (amended): inserting the scenario words into a new trie
(lexicographic sorting and direct-count display are the defaults of
Trie::new) and rendering yields a leading newline, an empty root line, and
then exactly the seven claimed lines with tab-separated counts. -/
theorem trie_scenario_text :
    RTree.render (Trie.toRTree (Trie.fromWords scenarioWords)) =
      "\n\n├── b\t1\n│   └── ba\t0\n│       ├── bar\t1\n│       └── baz\t2\n└── f\t0\n    └── fo\t0\n        └── foo\t3" := by
  decide

/-! ### The empty-word claim -/

theorem Trie.addW_nil_eq (c dc : Nat) (ch : List (Char × Trie)) (so : SortOption)
    (dd : DisplayData) :
    Trie.addW (.mk [] c dc ch so dd) [] = .mk [] (c + 1) (dc + 1) ch so dd := rfl

theorem Trie.foldl_addW_replicate_nil (k c dc : Nat) (ch : List (Char × Trie))
    (so : SortOption) (dd : DisplayData) :
    (List.replicate k ([] : List Char)).foldl Trie.addW (.mk [] c dc ch so dd) =
      .mk [] (c + k) (dc + k) ch so dd := by
  induction k generalizing c dc with
  | zero => simp
  | succ k ih =>
    rw [List.replicate_succ, List.foldl_cons, Trie.addW_nil_eq, ih]
    congr 1 <;> omega

/-- C9: adding the empty word at a root succeeds: it returns Ok of the new
count, increments only the root's direct and subtree counters, creates no
child; afterwards occurrences of the empty word is the root count and
total_occurrences counts those insertions; yet the root's value is the empty
string whatever the display mode, so the empty word's count is never
displayed. -/
theorem trie_add_empty_word (c dc : Nat) (ch : List (Char × Trie))
    (so : SortOption) (dd : DisplayData) (k : Nat) :
    Trie.add (.mk [] c dc ch so dd) [] = .ok (.mk [] (c + 1) (dc + 1) ch so dd, c + 1) ∧
      (∀ t : Trie, Trie.occurrences t [] = t.count) ∧
      Trie.value (.mk [] c dc ch so dd) = "" ∧
      Trie.occurrences (Trie.fromWords (List.replicate k [])) [] = k ∧
      Trie.totalOccurrences (Trie.fromWords (List.replicate k [])) = k := by
  have hfold : Trie.fromWords (List.replicate k []) = .mk [] k k [] .value .directCount := by
    rw [Trie.fromWords, Trie.new, Trie.newWithFragment, Trie.foldl_addW_replicate_nil]
    congr 1 <;> omega
  refine ⟨rfl, ?_, rfl, ?_, ?_⟩
  · intro t
    cases t with
    | mk f c2 dc2 ch2 so2 dd2 => rfl
  · rw [hfold]; rfl
  · rw [hfold]; rfl

/-! ### Propagating sort option and display mode (C8) -/

mutual

theorem Trie.skel_setSortOption (t : Trie) (so : SortOption) :
    (t.setSortOption so).skel = t.skel := by
  cases t with
  | mk f c dc ch so0 dd =>
    rw [Trie.setSortOption, Trie.skel, Trie.skel,
      Trie.skelList_setSortOptionList ch so]

theorem Trie.skelList_setSortOptionList (ch : List (Char × Trie)) (so : SortOption) :
    Trie.skelList (Trie.setSortOptionList ch so) = Trie.skelList ch := by
  cases ch with
  | nil => rfl
  | cons p rest =>
    cases p with
    | mk k t =>
      rw [Trie.setSortOptionList, Trie.skelList, Trie.skelList,
        Trie.skel_setSortOption t so, Trie.skelList_setSortOptionList rest so]

end

mutual

theorem Trie.skel_setDisplayData (t : Trie) (dd : DisplayData) :
    (t.setDisplayData dd).skel = t.skel := by
  cases t with
  | mk f c dc ch so dd0 =>
    rw [Trie.setDisplayData, Trie.skel, Trie.skel,
      Trie.skelList_setDisplayDataList ch dd]

theorem Trie.skelList_setDisplayDataList (ch : List (Char × Trie)) (dd : DisplayData) :
    Trie.skelList (Trie.setDisplayDataList ch dd) = Trie.skelList ch := by
  cases ch with
  | nil => rfl
  | cons p rest =>
    cases p with
    | mk k t =>
      rw [Trie.setDisplayDataList, Trie.skelList, Trie.skelList,
        Trie.skel_setDisplayData t dd, Trie.skelList_setDisplayDataList rest dd]

end

mutual

theorem Trie.allSortOption_setSortOption (t : Trie) (so : SortOption) :
    (t.setSortOption so).allSortOption so := by
  cases t with
  | mk f c dc ch so0 dd =>
    rw [Trie.setSortOption, Trie.allSortOption]
    exact ⟨rfl, Trie.allSortOptionList_setSortOptionList ch so⟩

theorem Trie.allSortOptionList_setSortOptionList (ch : List (Char × Trie))
    (so : SortOption) : Trie.allSortOptionList (Trie.setSortOptionList ch so) so := by
  cases ch with
  | nil => rw [Trie.setSortOptionList, Trie.allSortOptionList]; trivial
  | cons p rest =>
    cases p with
    | mk k t =>
      rw [Trie.setSortOptionList, Trie.allSortOptionList]
      exact ⟨Trie.allSortOption_setSortOption t so,
        Trie.allSortOptionList_setSortOptionList rest so⟩

end

mutual

theorem Trie.allDisplayData_setDisplayData (t : Trie) (dd : DisplayData) :
    (t.setDisplayData dd).allDisplayData dd := by
  cases t with
  | mk f c dc ch so dd0 =>
    rw [Trie.setDisplayData, Trie.allDisplayData]
    exact ⟨rfl, Trie.allDisplayDataList_setDisplayDataList ch dd⟩

theorem Trie.allDisplayDataList_setDisplayDataList (ch : List (Char × Trie))
    (dd : DisplayData) : Trie.allDisplayDataList (Trie.setDisplayDataList ch dd) dd := by
  cases ch with
  | nil => rw [Trie.setDisplayDataList, Trie.allDisplayDataList]; trivial
  | cons p rest =>
    cases p with
    | mk k t =>
      rw [Trie.setDisplayDataList, Trie.allDisplayDataList]
      exact ⟨Trie.allDisplayData_setDisplayData t dd,
        Trie.allDisplayDataList_setDisplayDataList rest dd⟩

end

/-- C8: set_sort_option sets the option on the node it is called on and on
every descendant, set_display_data likewise, and neither changes any node's
fragment, direct count, subtree count, or keyed child structure — the
settings-free skeleton of the trie is untouched. -/
theorem trie_set_options_frame (t : Trie) (so : SortOption) (dd : DisplayData) :
    (t.setSortOption so).allSortOption so ∧
      (t.setSortOption so).skel = t.skel ∧
      (t.setDisplayData dd).allDisplayData dd ∧
      (t.setDisplayData dd).skel = t.skel :=
  ⟨Trie.allSortOption_setSortOption t so, Trie.skel_setSortOption t so,
    Trie.allDisplayData_setDisplayData t dd, Trie.skel_setDisplayData t dd⟩

/-! ### Stability of the numeric child orderings (C6) -/

theorem filter_mergeSort_eq {α : Type} (le : α → α → Bool) (p : α → Bool)
    (l : List α)
    (htrans : ∀ a b c, le a b → le b c → le a c)
    (htotal : ∀ a b, le a b || le b a)
    (hp : ∀ a b, p a → p b → le a b) :
    (l.mergeSort le).filter p = l.filter p := by
  have hpw : (l.filter p).Pairwise (fun a b => le a b) := by
    apply List.pairwise_of_forall_mem_list
    intro a ha b hb
    exact hp a b (List.of_mem_filter ha) (List.of_mem_filter hb)
  have hsub : List.Sublist (l.filter p) ((l.mergeSort le).filter p) := by
    have h1 : List.Sublist (l.filter p) (l.mergeSort le) :=
      List.sublist_mergeSort htrans htotal hpw (List.filter_sublist l)
    have h2 := h1.filter p
    rw [List.filter_filter] at h2
    have h3 : (fun a => p a && p a) = p := by
      funext a
      rw [Bool.and_self]
    rw [h3] at h2
    exact h2
  have hlen : ((l.mergeSort le).filter p).length = (l.filter p).length :=
    ((List.mergeSort_perm l le).filter p).length_eq
  exact (hsub.eq_of_length hlen.symm).symm

theorem nat_le_trans_decide {α : Type} (f : α → Nat) :
    ∀ a b c : α, decide (f a ≤ f b) → decide (f b ≤ f c) → decide (f a ≤ f c) := by
  intro a b c h1 h2
  simp only [decide_eq_true_eq] at h1 h2 ⊢
  omega

theorem nat_le_total_decide {α : Type} (f : α → Nat) :
    ∀ a b : α, decide (f a ≤ f b) || decide (f b ≤ f a) := by
  intro a b
  simp only [Bool.or_eq_true, decide_eq_true_eq]
  omega

theorem nat_ge_trans_decide {α : Type} (f : α → Nat) :
    ∀ a b c : α, decide (f b ≤ f a) → decide (f c ≤ f b) → decide (f c ≤ f a) := by
  intro a b c h1 h2
  simp only [decide_eq_true_eq] at h1 h2 ⊢
  omega

theorem nat_ge_total_decide {α : Type} (f : α → Nat) :
    ∀ a b : α, decide (f b ≤ f a) || decide (f a ≤ f b) := by
  intro a b
  simp only [Bool.or_eq_true, decide_eq_true_eq]
  omega

theorem mergeSort_by_nat_key (f : Trie → Nat) (l : List Trie) (n : Nat) :
    ((l.mergeSort (fun a b => f a ≤ f b)).filter (fun x => f x = n) =
        l.filter (fun x => f x = n) ∧
      (l.mergeSort (fun a b => f a ≤ f b)).Pairwise (fun a b => f a ≤ f b)) ∧
      ((l.mergeSort (fun a b => f b ≤ f a)).filter (fun x => f x = n) =
          l.filter (fun x => f x = n) ∧
        (l.mergeSort (fun a b => f b ≤ f a)).Pairwise (fun a b => f b ≤ f a)) := by
  constructor
  · constructor
    · apply filter_mergeSort_eq
      · exact nat_le_trans_decide f
      · exact nat_le_total_decide f
      · intro a b ha hb
        simp only [decide_eq_true_eq] at ha hb ⊢
        omega
    · have h := List.sorted_mergeSort (nat_le_trans_decide f) (nat_le_total_decide f) l
      exact h.imp (fun hab => by simpa using hab)
  · constructor
    · apply filter_mergeSort_eq
      · intro a b c h1 h2
        simp only [decide_eq_true_eq] at h1 h2 ⊢
        omega
      · intro a b
        simp only [Bool.or_eq_true, decide_eq_true_eq]
        omega
      · intro a b ha hb
        simp only [decide_eq_true_eq] at ha hb ⊢
        omega
    · have h := List.sorted_mergeSort (nat_ge_trans_decide f) (nat_ge_total_decide f) l
      exact h.imp (fun hab => by simpa using hab)

/-- C6: for each of the four count-based sort options, children() yields the
children sorted by the relevant counter, and the children whose counters tie
appear in exactly their backing-map order (ascending key order) — the
numeric sorts, descending ones included, are stable with the key order as
secondary: filtering the sorted output at any counter value gives the same
sequence as filtering the stored (key-ascending) children. -/
theorem trie_numeric_sort_stable (f : List Char) (c dc : Nat)
    (ch : List (Char × Trie)) (dd : DisplayData) (n : Nat) :
    ((Trie.childrenSorted (.mk f c dc ch .directCountAscending dd)).Pairwise
        (fun a b => a.count ≤ b.count) ∧
      (Trie.childrenSorted (.mk f c dc ch .directCountAscending dd)).filter
          (fun x => x.count = n) =
        (ch.map Prod.snd).filter (fun x => x.count = n)) ∧
    ((Trie.childrenSorted (.mk f c dc ch .directCountDescending dd)).Pairwise
        (fun a b => b.count ≤ a.count) ∧
      (Trie.childrenSorted (.mk f c dc ch .directCountDescending dd)).filter
          (fun x => x.count = n) =
        (ch.map Prod.snd).filter (fun x => x.count = n)) ∧
    ((Trie.childrenSorted (.mk f c dc ch .totalCountAscending dd)).Pairwise
        (fun a b => a.descendentsCount ≤ b.descendentsCount) ∧
      (Trie.childrenSorted (.mk f c dc ch .totalCountAscending dd)).filter
          (fun x => x.descendentsCount = n) =
        (ch.map Prod.snd).filter (fun x => x.descendentsCount = n)) ∧
    ((Trie.childrenSorted (.mk f c dc ch .totalCountDescending dd)).Pairwise
        (fun a b => b.descendentsCount ≤ a.descendentsCount) ∧
      (Trie.childrenSorted (.mk f c dc ch .totalCountDescending dd)).filter
          (fun x => x.descendentsCount = n) =
        (ch.map Prod.snd).filter (fun x => x.descendentsCount = n)) := by
  have hda := mergeSort_by_nat_key Trie.count (ch.map Prod.snd) n
  have hta := mergeSort_by_nat_key Trie.descendentsCount (ch.map Prod.snd) n
  rw [Trie.childrenSorted, Trie.childrenSorted, Trie.childrenSorted, Trie.childrenSorted]
  exact ⟨⟨hda.1.2, hda.1.1⟩, ⟨hda.2.2, hda.2.1⟩, ⟨hta.1.2, hta.1.1⟩, ⟨hta.2.2, hta.2.1⟩⟩

/-! ### Helper lemmas for Trie::add (C4, C5, C7) -/

theorem prefix_decomp (f w : List Char) (h : f.isPrefixOf w = true) :
    ∃ s, w = f ++ s := by
  rw [List.isPrefixOf_iff_prefix] at h
  obtain ⟨s, hs⟩ := h
  exact ⟨s, hs.symm⟩

theorem eq_of_prefix_get_none (f w : List Char) (h : f.isPrefixOf w = true)
    (hn : w.get? f.length = none) : f = w := by
  obtain ⟨s, hs⟩ := prefix_decomp f w h
  rw [List.get?_eq_none] at hn
  subst hs
  rw [List.length_append] at hn
  have hs0 : s.length = 0 := by omega
  rw [List.length_eq_zero] at hs0
  subst hs0
  simp

theorem prefix_get_some (f w : List Char) (nc : Char) (h : f.isPrefixOf w = true)
    (hg : w.get? f.length = some nc) :
    w.take (f.length + 1) = f ++ [nc] ∧
      (f ++ [nc]).isPrefixOf w = true ∧
      w = (f ++ [nc]) ++ w.drop (f.length + 1) := by
  obtain ⟨s, hs⟩ := prefix_decomp f w h
  subst hs
  rw [List.get?_append_right (Nat.le_refl _), Nat.sub_self] at hg
  cases s with
  | nil => simp at hg
  | cons c s2 =>
    have hc : c = nc := by
      simp [List.get?] at hg
      exact hg
    subst hc
    have htake : (f ++ c :: s2).take (f.length + 1) = f ++ [c] := by
      rw [List.take_succ, List.take_left' rfl]
      have : (f ++ c :: s2)[f.length]? = some c := by
        rw [← List.get?_eq_getElem?, List.get?_append_right (Nat.le_refl _), Nat.sub_self]
        rfl
      rw [this]
      rfl
    refine ⟨htake, ?_, ?_⟩
    · rw [List.isPrefixOf_iff_prefix]
      exact ⟨s2, by simp⟩
    · have hdrop : (f ++ c :: s2).drop (f.length + 1) = s2 := by
        have hlen : (f ++ [c]).length = f.length + 1 := by simp
        have : f ++ c :: s2 = (f ++ [c]) ++ s2 := by simp
        rw [this, List.drop_left' hlen]
      rw [hdrop]
      simp

theorem Trie.addFresh_fragment (so : SortOption) (dd : DisplayData)
    (frag rest : List Char) : (Trie.addFresh so dd frag rest).fragment = frag := by
  cases rest with
  | nil => rfl
  | cons c r => rfl

theorem Trie.addFresh_descendentsCount (so : SortOption) (dd : DisplayData)
    (frag rest : List Char) : (Trie.addFresh so dd frag rest).descendentsCount = 1 := by
  cases rest with
  | nil => rfl
  | cons c r => rfl

theorem Trie.addFresh_good (so : SortOption) (dd : DisplayData)
    (frag rest : List Char) : (Trie.addFresh so dd frag rest).good = true := by
  induction rest generalizing frag with
  | nil => rfl
  | cons c r ih =>
    rw [Trie.addFresh, Trie.good]
    simp only [Bool.and_eq_true]
    constructor
    · rfl
    · rw [Trie.goodList]
      simp only [Bool.and_eq_true]
      exact ⟨⟨by simp [Trie.addFresh_fragment], ih (frag ++ [c])⟩, rfl⟩

theorem Trie.addFresh_countsOK (so : SortOption) (dd : DisplayData)
    (frag rest : List Char) : (Trie.addFresh so dd frag rest).countsOK := by
  induction rest generalizing frag with
  | nil => exact ⟨rfl, trivial⟩
  | cons c r ih =>
    rw [Trie.addFresh, Trie.countsOK]
    refine ⟨?_, ih (frag ++ [c]), trivial⟩
    rw [Trie.sumDC, Trie.sumDC, Trie.addFresh_descendentsCount]

theorem Trie.occurrences_addFresh (so : SortOption) (dd : DisplayData)
    (frag rest w : List Char) :
    (Trie.addFresh so dd frag rest).occurrences w = if w = rest then 1 else 0 := by
  induction rest generalizing frag w with
  | nil =>
    cases w with
    | nil => rfl
    | cons c2 r2 => simp [Trie.addFresh, Trie.occurrences, Trie.find, Trie.findIn]
  | cons c r ih =>
    cases w with
    | nil => simp [Trie.addFresh, Trie.occurrences, Trie.find, Trie.count]
    | cons c2 r2 =>
      rw [Trie.addFresh, Trie.occurrences]
      rw [Trie.find, Trie.findIn]
      by_cases hc : c2 = c
      · subst hc
        rw [if_pos rfl]
        have := ih (frag ++ [c2]) r2
        rw [Trie.occurrences] at this
        rw [this]
        by_cases hr : r2 = r
        · subst hr; simp
        · rw [if_neg hr, if_neg (by simp [hr])]
      · rw [if_neg hc, Trie.findIn]
        rw [if_neg (by simp [hc])]

/-- The direct count reached by walking from a child list: the count of the
node found by findIn, or 0. -/
def Trie.occList (ch : List (Char × Trie)) (c : Char) (rest : List Char) : Nat :=
  match Trie.findIn ch c rest with
  | some n => n.count
  | none => 0

theorem Trie.occurrences_mk_cons (f : List Char) (c0 dc : Nat)
    (ch : List (Char × Trie)) (so : SortOption) (dd : DisplayData)
    (c : Char) (rest : List Char) :
    Trie.occurrences (.mk f c0 dc ch so dd) (c :: rest) = Trie.occList ch c rest := rfl

theorem Trie.occurrences_mk_nil (f : List Char) (c0 dc : Nat)
    (ch : List (Char × Trie)) (so : SortOption) (dd : DisplayData) :
    Trie.occurrences (.mk f c0 dc ch so dd) [] = c0 := rfl

theorem Trie.ascKeys_iff_chain (ch : List (Char × Trie)) :
    Trie.ascKeys ch = true ↔ List.Chain' (fun a b => a < b) (ch.map Prod.fst) := by
  induction ch with
  | nil => simp [Trie.ascKeys]
  | cons p ch ih =>
    cases p with
    | mk k t =>
      cases ch with
      | nil => simp [Trie.ascKeys]
      | cons q rest =>
        cases q with
        | mk k2 t2 =>
          rw [Trie.ascKeys, Bool.and_eq_true, decide_eq_true_eq, ih]
          rw [List.map_cons, List.map_cons, List.map_cons, List.chain'_cons]

theorem Trie.ascKeys_iff_pairwise (ch : List (Char × Trie)) :
    Trie.ascKeys ch = true ↔ (ch.map Prod.fst).Pairwise (fun a b => a < b) := by
  rw [Trie.ascKeys_iff_chain, List.chain'_iff_pairwise]

theorem Trie.ascKeys_tail (p : Char × Trie) (ch : List (Char × Trie))
    (h : Trie.ascKeys (p :: ch) = true) : Trie.ascKeys ch = true := by
  cases p with
  | mk k t =>
    cases ch with
    | nil => rfl
    | cons q rest =>
      rw [Trie.ascKeys, Bool.and_eq_true] at h
      exact h.2

theorem Trie.goodList_cons_iff (f : List Char) (k : Char) (t : Trie)
    (rest : List (Char × Trie)) :
    Trie.goodList f ((k, t) :: rest) = true ↔
      t.fragment = f ++ [k] ∧ t.good = true ∧ Trie.goodList f rest = true := by
  rw [Trie.goodList]
  simp [Bool.and_eq_true, and_assoc]

theorem Trie.findIn_eq_none_of_not_mem (ch : List (Char × Trie)) (c : Char)
    (rest : List Char) (h : c ∉ ch.map Prod.fst) : Trie.findIn ch c rest = none := by
  induction ch with
  | nil => rfl
  | cons p tail ih =>
    cases p with
    | mk k t =>
      simp only [List.map_cons, List.mem_cons] at h
      push_neg at h
      rw [Trie.findIn, if_neg h.1]
      exact ih h.2

theorem get_append_self (f : List Char) (c2 : Char) (r : List Char) :
    (f ++ c2 :: r).get? f.length = some c2 := by
  rw [List.get?_append_right (Nat.le_refl _), Nat.sub_self]
  rfl

theorem Trie.occList_nil (c : Char) (r : List Char) : Trie.occList [] c r = 0 := rfl

theorem Trie.occList_cons (k : Char) (t : Trie) (tail : List (Char × Trie))
    (c : Char) (r : List Char) :
    Trie.occList ((k, t) :: tail) c r =
      if c = k then t.occurrences r else Trie.occList tail c r := by
  by_cases h : c = k
  · rw [if_pos h, Trie.occList, Trie.findIn, if_pos h, Trie.occurrences]
  · rw [if_neg h, Trie.occList, Trie.findIn, if_neg h, Trie.occList]

theorem append_eq_iff_drop (f word rest : List Char) (nc : Char)
    (hdecomp : word = (f ++ [nc]) ++ word.drop (f.length + 1)) :
    ((f ++ [nc]) ++ rest = word) ↔ rest = word.drop (f.length + 1) := by
  constructor
  · intro h
    rw [hdecomp] at h
    exact List.append_cancel_left h
  · intro h
    rw [h]
    exact hdecomp.symm

theorem Trie.add_eq_of_get_none (f : List Char) (c dc : Nat)
    (ch : List (Char × Trie)) (so : SortOption) (dd : DisplayData)
    (word : List Char) (hp : f.isPrefixOf word = true)
    (hget : word.get? f.length = none) :
    Trie.add (.mk f c dc ch so dd) word =
      .ok (.mk f (c + 1) (dc + 1) ch so dd, c + 1) := by
  rw [Trie.add, if_pos hp, hget]

theorem Trie.add_eq_of_get_some (f : List Char) (c dc : Nat)
    (ch : List (Char × Trie)) (so : SortOption) (dd : DisplayData)
    (word : List Char) (nc : Char) (hp : f.isPrefixOf word = true)
    (hget : word.get? f.length = some nc) :
    Trie.add (.mk f c dc ch so dd) word =
      match Trie.addInChildren ch nc word so dd f.length with
      | .ok (ch2, n) => .ok (.mk f c (dc + 1) ch2 so dd, n)
      | .error e => .error e := by
  rw [Trie.add, if_pos hp, hget]

mutual

theorem Trie.add_spec (t : Trie) (word : List Char)
    (hg : t.good = true) (hp : t.fragment.isPrefixOf word = true) :
    ∃ t2 n, t.add word = .ok (t2, n) ∧
      t2.fragment = t.fragment ∧
      t2.good = true ∧
      t2.descendentsCount = t.descendentsCount + 1 ∧
      (t.countsOK → t2.countsOK) ∧
      (∀ w, t2.occurrences w =
        t.occurrences w + if t.fragment ++ w = word then 1 else 0) := by
  cases t with
  | mk f c dc ch so dd =>
    rw [Trie.good, Bool.and_eq_true] at hg
    obtain ⟨hasc, hgl⟩ := hg
    rw [Trie.fragment] at hp
    simp only [Trie.fragment, Trie.descendentsCount]
    cases hget : word.get? f.length with
    | none =>
      have hfw : f = word := eq_of_prefix_get_none f word hp hget
      rw [Trie.add_eq_of_get_none f c dc ch so dd word hp hget]
      refine ⟨.mk f (c+1) (dc+1) ch so dd, c+1, rfl, rfl, ?_, rfl, ?_, ?_⟩
      · rw [Trie.good, Bool.and_eq_true]
        exact ⟨hasc, hgl⟩
      · intro hok
        rw [Trie.countsOK] at hok ⊢
        obtain ⟨h1, h2⟩ := hok
        exact ⟨by omega, h2⟩
      · intro w
        cases w with
        | nil =>
          rw [Trie.occurrences_mk_nil, Trie.occurrences_mk_nil,
            if_pos (show f ++ [] = word by rw [List.append_nil]; exact hfw)]
        | cons c2 r =>
          have hne2 : ¬ (f ++ c2 :: r = word) := by
            intro hcon
            rw [← hfw] at hcon
            have hlen := congrArg List.length hcon
            rw [List.length_append, List.length_cons] at hlen
            omega
          rw [Trie.occurrences_mk_cons, Trie.occurrences_mk_cons, if_neg hne2]
          omega
    | some nc =>
      obtain ⟨ch2, n, hok, hmem, hasc2, hgl2, hsum, hcntl, hfind, hocc⟩ :=
        Trie.addInChildren_spec ch nc word so dd f hasc hgl hp hget
      rw [Trie.add_eq_of_get_some f c dc ch so dd word nc hp hget, hok]
      refine ⟨.mk f c (dc+1) ch2 so dd, n, rfl, rfl, ?_, rfl, ?_, ?_⟩
      · rw [Trie.good, Bool.and_eq_true]
        exact ⟨hasc2, hgl2⟩
      · intro hokc
        rw [Trie.countsOK] at hokc ⊢
        obtain ⟨h1, h2⟩ := hokc
        refine ⟨by rw [hsum]; omega, hcntl h2⟩
      · intro w
        cases w with
        | nil =>
          have hne2 : ¬ (f ++ [] = word) := by
            rw [List.append_nil]
            rintro rfl
            rw [List.get?_eq_none.mpr (Nat.le_refl _)] at hget
            exact Option.noConfusion hget
          rw [Trie.occurrences_mk_nil, Trie.occurrences_mk_nil, if_neg hne2]
          omega
        | cons c2 r =>
          rw [Trie.occurrences_mk_cons, Trie.occurrences_mk_cons]
          by_cases hc2 : c2 = nc
          · subst hc2
            rw [hocc r]
            have hcond : (f ++ [c2]) ++ r = f ++ c2 :: r := by simp
            rw [hcond]
          · have heq : Trie.occList ch2 c2 r = Trie.occList ch c2 r := by
              rw [Trie.occList, Trie.occList, hfind c2 r hc2]
            have hne2 : ¬ (f ++ c2 :: r = word) := by
              intro hcon
              rw [← hcon, get_append_self] at hget
              exact hc2 (Option.some.inj hget)
            rw [heq, if_neg hne2]
            omega

theorem Trie.addInChildren_spec (ch : List (Char × Trie)) (nc : Char)
    (word : List Char) (so : SortOption) (dd : DisplayData) (f : List Char)
    (hasc : Trie.ascKeys ch = true) (hgl : Trie.goodList f ch = true)
    (hp : f.isPrefixOf word = true) (hget : word.get? f.length = some nc) :
    ∃ ch2 n, Trie.addInChildren ch nc word so dd f.length = .ok (ch2, n) ∧
      (∀ k2 ∈ ch2.map Prod.fst, k2 = nc ∨ k2 ∈ ch.map Prod.fst) ∧
      Trie.ascKeys ch2 = true ∧
      Trie.goodList f ch2 = true ∧
      Trie.sumDC ch2 = Trie.sumDC ch + 1 ∧
      (Trie.countsOKList ch → Trie.countsOKList ch2) ∧
      (∀ c2 rest, c2 ≠ nc → Trie.findIn ch2 c2 rest = Trie.findIn ch c2 rest) ∧
      (∀ rest, Trie.occList ch2 nc rest =
        Trie.occList ch nc rest + if (f ++ [nc]) ++ rest = word then 1 else 0) := by
  obtain ⟨htake, hpre2, hdecomp⟩ := prefix_get_some f word nc hp hget
  cases ch with
  | nil =>
    refine ⟨[(nc, Trie.addFresh so dd (word.take (f.length+1)) (word.drop (f.length+1)))],
      1, rfl, ?_, rfl, ?_, ?_, ?_, ?_, ?_⟩
    · intro k2 hk2
      simp at hk2
      exact Or.inl hk2
    · rw [Trie.goodList_cons_iff]
      exact ⟨by rw [Trie.addFresh_fragment, htake], Trie.addFresh_good so dd _ _, rfl⟩
    · simp only [Trie.sumDC, Trie.addFresh_descendentsCount]
    · intro _
      rw [Trie.countsOKList]
      exact ⟨Trie.addFresh_countsOK so dd _ _, trivial⟩
    · intro c2 rest hne
      show (if c2 = nc then _ else Trie.findIn [] c2 rest) = _
      rw [if_neg hne]
    · intro rest
      rw [Trie.occList_cons, if_pos rfl, Trie.occList_nil, Trie.occurrences_addFresh]
      rw [if_congr (append_eq_iff_drop f word rest nc hdecomp).symm rfl rfl]
      omega
  | cons p tail =>
    cases p with
    | mk k t =>
      rw [Trie.goodList_cons_iff] at hgl
      obtain ⟨hfr, hgt, hglr⟩ := hgl
      by_cases hk : nc = k
      · subst hk
        obtain ⟨t2, n, haddok, hfrag2, hgood2, hdc2, hcnt2, hocc2⟩ :=
          Trie.add_spec t word hgt (by rw [hfr]; exact hpre2)
        rw [Trie.addInChildren, if_pos rfl, haddok]
        refine ⟨(nc, t2) :: tail, n, rfl, ?_, ?_, ?_, ?_, ?_, ?_, ?_⟩
        · intro k2 hk2
          rw [List.map_cons, List.mem_cons] at hk2
          rcases hk2 with rfl | hk2
          · exact Or.inl rfl
          · exact Or.inr (by rw [List.map_cons, List.mem_cons]; exact Or.inr hk2)
        · have hsame : Trie.ascKeys ((nc, t2) :: tail) = Trie.ascKeys ((nc, t) :: tail) := by
            cases tail with
            | nil => rfl
            | cons q r2 => rfl
          rw [hsame]
          exact hasc
        · rw [Trie.goodList_cons_iff]
          exact ⟨by rw [hfrag2, hfr], hgood2, hglr⟩
        · rw [Trie.sumDC, Trie.sumDC, hdc2]
          omega
        · intro hcl
          rw [Trie.countsOKList] at hcl ⊢
          exact ⟨hcnt2 hcl.1, hcl.2⟩
        · intro c2 r0 hne
          rw [Trie.findIn, if_neg hne, Trie.findIn, if_neg hne]
        · intro r0
          rw [Trie.occList_cons, if_pos rfl, Trie.occList_cons, if_pos rfl]
          rw [hocc2 r0, hfr]
      · by_cases hlt : nc < k
        · rw [Trie.addInChildren, if_neg hk, if_pos hlt]
          refine ⟨(nc, Trie.addFresh so dd (word.take (f.length+1))
            (word.drop (f.length+1))) :: (k, t) :: tail, 1, rfl, ?_, ?_, ?_, ?_, ?_, ?_, ?_⟩
          · intro k2 hk2
            rw [List.map_cons, List.mem_cons] at hk2
            rcases hk2 with rfl | hk2
            · exact Or.inl rfl
            · exact Or.inr hk2
          · rw [Trie.ascKeys_iff_pairwise] at hasc ⊢
            rw [List.map_cons, List.pairwise_cons]
            refine ⟨?_, hasc⟩
            intro x hx
            rw [List.map_cons, List.mem_cons] at hx
            rcases hx with rfl | hx
            · exact hlt
            · rw [List.map_cons, List.pairwise_cons] at hasc
              exact lt_trans hlt (hasc.1 x hx)
          · rw [Trie.goodList_cons_iff]
            refine ⟨by rw [Trie.addFresh_fragment, htake], Trie.addFresh_good so dd _ _, ?_⟩
            rw [Trie.goodList_cons_iff]
            exact ⟨hfr, hgt, hglr⟩
          · rw [Trie.sumDC, Trie.addFresh_descendentsCount]
            omega
          · intro hcl
            rw [Trie.countsOKList]
            exact ⟨Trie.addFresh_countsOK so dd _ _, hcl⟩
          · intro c2 r0 hne
            rw [Trie.findIn, if_neg hne]
          · intro r0
            rw [Trie.occList_cons, if_pos rfl, Trie.occurrences_addFresh]
            have hnone : Trie.occList ((k, t) :: tail) nc r0 = 0 := by
              rw [Trie.occList, Trie.findIn_eq_none_of_not_mem]
              intro hmem2
              rw [List.map_cons, List.mem_cons] at hmem2
              rcases hmem2 with rfl | hmem2
              · exact hk rfl
              · rw [Trie.ascKeys_iff_pairwise, List.map_cons, List.pairwise_cons] at hasc
                exact absurd (hasc.1 nc hmem2) (by intro h2; exact absurd (lt_trans hlt h2) (lt_irrefl nc))
            rw [hnone]
            rw [if_congr (append_eq_iff_drop f word r0 nc hdecomp).symm rfl rfl]
            omega
        · have hkn : k < nc := by
            rcases lt_trichotomy nc k with h | h | h
            · exact absurd h hlt
            · exact absurd h hk
            · exact h
          obtain ⟨rest2, n, hokr, hmemr, hascr, hglr2, hsumr, hcntr, hfindr, hoccr⟩ :=
            Trie.addInChildren_spec tail nc word so dd f (Trie.ascKeys_tail _ _ hasc) hglr hp hget
          rw [Trie.addInChildren, if_neg hk, if_neg hlt, hokr]
          refine ⟨(k, t) :: rest2, n, rfl, ?_, ?_, ?_, ?_, ?_, ?_, ?_⟩
          · intro k2 hk2
            rw [List.map_cons, List.mem_cons] at hk2
            rcases hk2 with rfl | hk2
            · exact Or.inr (by rw [List.map_cons, List.mem_cons]; exact Or.inl rfl)
            · rcases hmemr k2 hk2 with h | h
              · exact Or.inl h
              · exact Or.inr (by rw [List.map_cons, List.mem_cons]; exact Or.inr h)
          · rw [Trie.ascKeys_iff_pairwise] at hasc hascr ⊢
            rw [List.map_cons, List.pairwise_cons]
            refine ⟨?_, hascr⟩
            intro x hx
            rcases hmemr x hx with rfl | h
            · exact hkn
            · rw [List.map_cons, List.pairwise_cons] at hasc
              exact hasc.1 x h
          · rw [Trie.goodList_cons_iff]
            exact ⟨hfr, hgt, hglr2⟩
          · rw [Trie.sumDC, Trie.sumDC, hsumr]
            omega
          · intro hcl
            rw [Trie.countsOKList] at hcl ⊢
            exact ⟨hcl.1, hcntr hcl.2⟩
          · intro c2 r0 hne
            rw [Trie.findIn, Trie.findIn]
            by_cases hck : c2 = k
            · rw [if_pos hck, if_pos hck]
            · rw [if_neg hck, if_neg hck]
              exact hfindr c2 r0 hne
          · intro r0
            rw [Trie.occList_cons, if_neg hk, Trie.occList_cons, if_neg hk]
            exact hoccr r0

end

theorem Trie.good_new : Trie.new.good = true := rfl

theorem Trie.occurrences_new (w : List Char) : Trie.new.occurrences w = 0 := by
  cases w with
  | nil => rfl
  | cons c r => rfl

theorem Trie.countsOK_new : Trie.new.countsOK := ⟨rfl, trivial⟩

theorem nil_isPrefixOf (u : List Char) : List.isPrefixOf [] u = true := by
  cases u with
  | nil => rfl
  | cons c r => rfl

theorem Trie.foldl_addW_spec (ws : List (List Char)) (t : Trie)
    (hg : t.good = true) (hf : t.fragment = []) :
    (ws.foldl Trie.addW t).good = true ∧
      (ws.foldl Trie.addW t).fragment = [] ∧
      (ws.foldl Trie.addW t).descendentsCount = t.descendentsCount + ws.length ∧
      (t.countsOK → (ws.foldl Trie.addW t).countsOK) ∧
      (∀ w, (ws.foldl Trie.addW t).occurrences w = t.occurrences w + ws.count w) := by
  induction ws generalizing t with
  | nil =>
    exact ⟨hg, hf, by simp, fun h => h, fun w => by simp⟩
  | cons u ws ih =>
    obtain ⟨t2, n, hok, hfrag, hgood, hdc, hcnt, hocc⟩ :=
      Trie.add_spec t u hg (by rw [hf]; exact nil_isPrefixOf u)
    have haddW : Trie.addW t u = t2 := by rw [Trie.addW, hok]
    rw [List.foldl_cons, haddW]
    obtain ⟨g2, f2, d2, c2, o2⟩ := ih t2 hgood (hfrag.trans hf)
    refine ⟨g2, f2, ?_, ?_, ?_⟩
    · rw [d2, hdc, List.length_cons]
      omega
    · intro hok0
      exact c2 (hcnt hok0)
    · intro w
      rw [o2 w, hocc w, hf, List.count_cons]
      by_cases hw : w = u
      · rw [if_pos (by rw [List.nil_append]; exact hw),
          if_pos (by rw [beq_iff_eq]; exact hw.symm)]
        omega
      · rw [if_neg (by rw [List.nil_append]; exact hw),
          if_neg (by rw [beq_iff_eq]; exact fun h => hw h.symm)]
        omega

/-- C4: for every word sequence added at a trie root, occurrences(w) is
exactly the number of times w itself was added (0 when never added as a
complete word, including when w exists only as a proper prefix), and
total_occurrences() at the root is the total number of add calls. -/
theorem trie_occurrences_total (ws : List (List Char)) (w : List Char) :
    Trie.occurrences (Trie.fromWords ws) w = ws.count w ∧
      Trie.totalOccurrences (Trie.fromWords ws) = ws.length := by
  obtain ⟨_, _, hdc, _, hocc⟩ := Trie.foldl_addW_spec ws Trie.new Trie.good_new rfl
  constructor
  · rw [Trie.fromWords, hocc w, Trie.occurrences_new]
    omega
  · rw [Trie.fromWords, Trie.totalOccurrences, hdc]
    have h0 : Trie.new.descendentsCount = 0 := rfl
    omega

/-- C5: after every sequence of root-level insertions, every node of the
trie satisfies: descendents_count equals its own count plus the sum of the
children's descendents counts. -/
theorem trie_subtree_count_invariant (ws : List (List Char)) :
    (Trie.fromWords ws).countsOK := by
  obtain ⟨_, _, _, hcnt, _⟩ := Trie.foldl_addW_spec ws Trie.new Trie.good_new rfl
  exact hcnt Trie.countsOK_new

theorem Trie.add_error_of_not_prefix (t : Trie) (word : List Char)
    (h : ¬ t.fragment.isPrefixOf word = true) :
    t.add word = .error "cannot add word to node with incompatible prefix" := by
  cases t with
  | mk f c dc ch so dd =>
    rw [Trie.fragment] at h
    rw [Trie.add, if_neg h]

/-- C7: on a well-formed node, add returns the incompatible-prefix error
exactly when the word does not begin with the node's fragment (the source
returns that error before touching any field, so the node is unchanged),
and at a root node, whose fragment is empty, add never errors. -/
theorem trie_add_error_iff (t : Trie) (word : List Char) (hg : t.good = true) :
    ((∃ e, t.add word = .error e) ↔ ¬ t.fragment.isPrefixOf word = true) ∧
      (¬ t.fragment.isPrefixOf word = true →
        t.add word = .error "cannot add word to node with incompatible prefix") ∧
      (t.fragment = [] → ∃ t2 n, t.add word = .ok (t2, n)) := by
  refine ⟨⟨?_, ?_⟩, ?_, ?_⟩
  · rintro ⟨e, he⟩ hpre
    obtain ⟨t2, n, hok, _⟩ := Trie.add_spec t word hg hpre
    rw [hok] at he
    exact Except.noConfusion he
  · intro h
    exact ⟨_, Trie.add_error_of_not_prefix t word h⟩
  · exact Trie.add_error_of_not_prefix t word
  · intro hf
    obtain ⟨t2, n, hok, _⟩ := Trie.add_spec t word hg (by rw [hf]; exact nil_isPrefixOf word)
    exact ⟨t2, n, hok⟩

/-- Concrete instance of the C7 error characterization: a fresh root and the
word "ab". -/
theorem trie_add_error_iff_witness :
    ((∃ e, Trie.new.add "ab".toList = .error e) ↔
        ¬ Trie.new.fragment.isPrefixOf "ab".toList = true) ∧
      (¬ Trie.new.fragment.isPrefixOf "ab".toList = true →
        Trie.new.add "ab".toList =
          .error "cannot add word to node with incompatible prefix") ∧
      (Trie.new.fragment = [] → ∃ t2 n, Trie.new.add "ab".toList = .ok (t2, n)) :=
  trie_add_error_iff Trie.new "ab".toList Trie.good_new

theorem Trie.add_newWithFragment (so : SortOption) (dd : DisplayData)
    (frag rest : List Char) :
    (Trie.newWithFragment frag so dd).add (frag ++ rest) =
      .ok (Trie.addFresh so dd frag rest, 1) := by
  cases rest with
  | nil =>
    have hp : frag.isPrefixOf (frag ++ []) = true := by
      rw [List.isPrefixOf_iff_prefix]
      exact ⟨[], rfl⟩
    have hget : (frag ++ []).get? frag.length = none := by
      rw [List.append_nil, List.get?_eq_none]
    rw [Trie.newWithFragment, Trie.add_eq_of_get_none frag 0 0 [] so dd (frag ++ []) hp hget]
    rfl
  | cons c r =>
    have hp : frag.isPrefixOf (frag ++ c :: r) = true := by
      rw [List.isPrefixOf_iff_prefix]
      exact ⟨c :: r, rfl⟩
    have hget : (frag ++ c :: r).get? frag.length = some c := get_append_self frag c r
    obtain ⟨htake, _, hdecomp⟩ := prefix_get_some frag (frag ++ c :: r) c hp hget
    have hdrop : (frag ++ c :: r).drop (frag.length + 1) = r := by
      have h2 : (frag ++ [c]) ++ r = frag ++ c :: r := by simp
      have h3 : (frag ++ [c]) ++ r =
          (frag ++ [c]) ++ (frag ++ c :: r).drop (frag.length + 1) := by
        rw [h2]
        exact hdecomp
      exact (List.append_cancel_left h3).symm
    rw [Trie.newWithFragment, Trie.add_eq_of_get_some frag 0 0 [] so dd (frag ++ c :: r) c hp hget]
    simp only [Trie.addInChildren, htake, hdrop]
    rfl

theorem Trie.childPairs_eq (ch : List (Char × Trie)) :
    Trie.childPairs ch = (ch.map Prod.snd).map (fun t => (t, t.toRTree)) := by
  induction ch with
  | nil => rfl
  | cons p rest ih =>
    cases p with
    | mk k t =>
      rw [Trie.childPairs, List.map_cons, List.map_cons, ih]

/-- The structural construction of the renderer view agrees with value() and
the childrenSorted model of children(): a trie renders as its value over the
renderer views of its sorted children. -/
theorem map_pair_mergeSort (le : Trie → Trie → Bool) (l : List Trie) :
    ((l.map (fun t => (t, Trie.toRTree t))).mergeSort
        (fun p q => le p.1 q.1)).map Prod.snd =
      (l.mergeSort le).map Trie.toRTree := by
  have hm : (l.mergeSort le).map (fun t => (t, Trie.toRTree t)) =
      (l.map (fun t => (t, Trie.toRTree t))).mergeSort (fun p q => le p.1 q.1) :=
    List.map_mergeSort (fun a ha b hb => rfl)
  rw [← hm, List.map_map]
  rfl

theorem Trie.toRTree_eq (t : Trie) :
    t.toRTree = .node t.value (t.childrenSorted.map Trie.toRTree) := by
  cases t with
  | mk f c dc ch so dd =>
    cases so with
    | value =>
      rw [Trie.toRTree, Trie.childrenSorted, Trie.childPairs_eq, Trie.sortPairs,
        List.map_map]
      rfl
    | valueReversed =>
      rw [Trie.toRTree, Trie.childrenSorted, Trie.childPairs_eq, Trie.sortPairs,
        ← List.map_reverse, List.map_map]
      rfl
    | directCountAscending =>
      rw [Trie.toRTree, Trie.childrenSorted, Trie.childPairs_eq, Trie.sortPairs,
        map_pair_mergeSort (fun a b => a.count ≤ b.count) (ch.map Prod.snd)]
    | directCountDescending =>
      rw [Trie.toRTree, Trie.childrenSorted, Trie.childPairs_eq, Trie.sortPairs,
        map_pair_mergeSort (fun a b => b.count ≤ a.count) (ch.map Prod.snd)]
    | totalCountAscending =>
      rw [Trie.toRTree, Trie.childrenSorted, Trie.childPairs_eq, Trie.sortPairs,
        map_pair_mergeSort (fun a b => a.descendentsCount ≤ b.descendentsCount)
          (ch.map Prod.snd)]
    | totalCountDescending =>
      rw [Trie.toRTree, Trie.childrenSorted, Trie.childPairs_eq, Trie.sortPairs,
        map_pair_mergeSort (fun a b => b.descendentsCount ≤ a.descendentsCount)
          (ch.map Prod.snd)]
